import Mathlib

/-!
# Verification of the greedy CDN cache-placement engine

A shallow embedding of `src/src/main.rs` (a HashCode content-placement
program).  Machine integers (`u32`, casts to `i32`) are modelled as `Nat`
with explicit wrapping modulo `2^32` where under/overflow can occur; the
`HashSet<Id>` of stored videos is modelled as `Finset Nat`; the two
`HashMap` accumulation steps are modelled as association-list folds
(insertion order is the canonical enumeration; where the program's
behaviour depends on the map's arbitrary iteration order, definitions are
parameterised by an enumeration that is a permutation of the map).
Rayon parallel combinators (`filter_map`, `max_by_key`, `find`/`find_any`)
are modelled by their sequential list counterparts.
-/

/-- `u32` wrapping: reduce modulo `2^32`. -/
def wrap32 (x : Nat) : Nat := x % 2 ^ 32

/-- `u32` wrapping subtraction (Rust release-mode semantics of `a - b`):
for `a < 2^32` this is `(a + 2^32 - b % 2^32) % 2^32`. -/
def usub32 (a b : Nat) : Nat := (a + 2 ^ 32 - b % 2 ^ 32) % 2 ^ 32

/-- Rust's `x as i32` cast applied to a `u32` value modelled as `Nat`. -/
def toI32 (x : Nat) : Int := ((x : Int) + 2 ^ 31) % 2 ^ 32 - 2 ^ 31

theorem wrap32_eq_of_lt {x : Nat} (h : x < 2 ^ 32) : wrap32 x = x :=
  Nat.mod_eq_of_lt h

theorem usub32_of_le {a b : Nat} (hb : b ≤ a) (ha : a < 2 ^ 32) :
    usub32 a b = a - b := by
  unfold usub32
  have hblt : b < 2 ^ 32 := lt_of_le_of_lt hb ha
  rw [Nat.mod_eq_of_lt hblt]
  have h1 : a + 2 ^ 32 - b = (a - b) + 2 ^ 32 := by omega
  rw [h1, Nat.add_mod_right, Nat.mod_eq_of_lt (by omega)]

theorem toI32_of_lt {x : Nat} (h : x < 2 ^ 31) : toI32 x = (x : Int) := by
  unfold toI32
  have h0 : (0 : Int) ≤ (x : Int) + 2 ^ 31 := by positivity
  have h1 : (x : Int) + 2 ^ 31 < 2 ^ 32 := by
    have : (x : Int) < 2 ^ 31 := by exact_mod_cast h
    omega
  rw [Int.emod_eq_of_lt h0 h1]
  ring

/-- `struct Video { size: u32 }` -/
structure Video where
  size : Nat
deriving Repr, DecidableEq, Inhabited

/-- `struct Endpoint { latency: u32, cache_connections: Vec<(Id, u32)> }`,
where each connection is `(cache_id, link_latency)`. -/
structure Endpoint where
  latency : Nat
  cache_connections : List (Nat × Nat)
deriving Repr, DecidableEq, Inhabited

/-- `struct RequestDescription { amount: u32, video_id: Id, endpoint_id: Id }` -/
structure RequestDescription where
  amount : Nat
  video_id : Nat
  endpoint_id : Nat
deriving Repr, DecidableEq, Inhabited

/-- `struct Input`.  `caches: Vec<Cache>` holds unit structs, so only its
length matters; it is modelled by the count `numCaches`. -/
structure Input where
  videos : List Video
  endpoints : List Endpoint
  numCaches : Nat
  cache_size : Nat
  request_descriptions : List RequestDescription
deriving Repr, Inhabited

/-- Size of video `video_id`, as read by `input.videos[video_id].size`
(out-of-range ids give the default size 0; Rust would panic there). -/
def sizeOfVid (inp : Input) (video_id : Nat) : Nat :=
  (inp.videos.getD video_id default).size

/-- `struct State` — the Allocation State: per-cache stored-video sets and
per-cache usage counters, plus the (immutable) input. -/
structure State where
  cached_videos : List (Finset Nat)
  cache_usage : List Nat
  input : Input

/-- `State::new`: empty sets, zero usage. -/
def State.new (input : Input) : State :=
  { cached_videos := List.replicate input.numCaches ∅
    cache_usage := List.replicate input.numCaches 0
    input := input }

/-- `State::cache_usage(cache_id)` — the usage counter of one cache. -/
def State.usageOf (s : State) (cache_id : Nat) : Nat :=
  s.cache_usage.getD cache_id 0

/-- The set of videos stored in cache `cache_id`
(`self.cached_videos[cache_id]`). -/
def State.storedSet (s : State) (cache_id : Nat) : Finset Nat :=
  s.cached_videos.getD cache_id ∅

/-- `State::is_caching`: does any cache reachable from the endpoint
already store the video? -/
def State.is_caching (s : State) (endpoint_id video_id : Nat) : Bool :=
  (s.input.endpoints.getD endpoint_id default).cache_connections.any
    (fun p => decide (video_id ∈ s.storedSet p.1))

/-- `State::insert_video_in_cache`: add the video to the cache's set and
bump the usage counter (`u32` addition, hence `wrap32`). -/
def State.insert_video_in_cache (s : State) (cache_id video_id : Nat) : State :=
  { s with
    cached_videos :=
      s.cached_videos.set cache_id (insert video_id (s.storedSet cache_id))
    cache_usage :=
      s.cache_usage.set cache_id
        (wrap32 (s.usageOf cache_id + sizeOfVid s.input video_id)) }

/-- The latency lookup inside `State::score`: the first connection (in the
endpoint's stored order) whose cache holds the video. -/
def State.findLatency (s : State) (e : Endpoint) (video_id : Nat) : Option Nat :=
  (e.cache_connections.find? (fun p => decide (video_id ∈ s.storedSet p.1))).map
    (fun p => p.2)

/-- One request description's contribution to `sum_latency` in
`State::score`: `((endpoint.latency - latency) * amount) as u64` when a
caching connection was found, nothing otherwise. -/
def State.scoreTerm (s : State) (rd : RequestDescription) : Nat :=
  let e := s.input.endpoints.getD rd.endpoint_id default
  match s.findLatency e rd.video_id with
  | some lat => wrap32 (usub32 e.latency lat * rd.amount)
  | none => 0

/-- The `sum_requests` accumulator of `State::score`. -/
def sumRequests (inp : Input) : Nat :=
  (inp.request_descriptions.map (fun rd => rd.amount)).sum

/-- `State::score`.  The accumulation loop is modelled as map-and-sum; the
`u64` accumulators are modelled as exact `Nat` (each term is `< 2^32`, so a
`u64` wrap needs `≥ 2^32` request descriptions and is not modelled).  The
normalized score `((sum_latency as f64 / sum_requests as f64) * 1000.0)
.floor() as u32` is modelled as the floor of the exact quotient pushed
through Rust's saturating float-to-`u32` cast: for `sum_requests = 0` the
`f64` division yields `NaN` and the cast maps `NaN` to `0`, which is the
first branch; otherwise the cast caps the (non-negative) floored value at
`u32::MAX = 2^32 - 1`, so the result is
`min (sum_latency * 1000 / sum_requests) (2^32 - 1)` in `Nat` division.
(The `f64` rounding of the quotient itself is idealized as exact real
arithmetic.) -/
def State.score (s : State) : Nat × Nat :=
  let sum_latency := (s.input.request_descriptions.map (fun rd => s.scoreTerm rd)).sum
  let sum_requests := sumRequests s.input
  (sum_latency,
    if sum_requests = 0 then 0
    else min (sum_latency * 1000 / sum_requests) (2 ^ 32 - 1))

/-- The capacity test shared by `greedy_next` and the `main` loop:
`cache_size as i32 - usage as i32 >= size as i32`. -/
def State.fitsCache (s : State) (cache_id video_id : Nat) : Bool :=
  decide (toI32 (sizeOfVid s.input video_id) ≤
    toI32 s.input.cache_size - toI32 (s.usageOf cache_id))

/-- The per-request-description candidates built inside `greedy_next`:
skip the description if the endpoint is already served, otherwise take
the first connection whose cache has room and emit
`((latency - cache_latency) * amount, (video_id, cache_id))`
(`u32` arithmetic). -/
def State.greedyCandidates (s : State) : List (Nat × (Nat × Nat)) :=
  s.input.request_descriptions.filterMap (fun rd =>
    if s.is_caching rd.endpoint_id rd.video_id then none
    else
      let e := s.input.endpoints.getD rd.endpoint_id default
      match e.cache_connections.find? (fun p => s.fitsCache p.1 rd.video_id) with
      | some p => some (wrap32 (usub32 e.latency p.2 * rd.amount), (rd.video_id, p.1))
      | none => none)

/-- One comparison step of `max_by_key(|x| x.0)`: keep whichever of the
accumulator and the new element has the larger key (later elements win
ties, as with Rust's sequential `max_by_key`). -/
def maxStep (acc : Option (Nat × (Nat × Nat))) (x : Nat × (Nat × Nat)) :
    Option (Nat × (Nat × Nat)) :=
  match acc with
  | none => some x
  | some y => if y.1 ≤ x.1 then some x else some y

/-- `max_by_key(|x| x.0)` over a candidate list. -/
def maxByFst (l : List (Nat × (Nat × Nat))) : Option (Nat × (Nat × Nat)) :=
  l.foldl maxStep none

/-- `greedy_next`: the best candidate of the basic strategy. -/
def greedy_next (s : State) : Option (Nat × (Nat × Nat)) :=
  maxByFst s.greedyCandidates

/-- Generic optimizer loop: repeatedly ask `next` for a `(cache_id,
video_id)` pair and insert it; stop when `next` returns `none`.  `fuel`
bounds the number of iterations (the Rust `while let` loops have no bound;
every theorem below supplies enough fuel for the loop to reach its
fixpoint). -/
def runLoop (next : State → Option (Nat × Nat)) : Nat → State → State
  | 0, s => s
  | fuel + 1, s =>
    match next s with
    | none => s
    | some (cache_id, video_id) =>
      runLoop next fuel (s.insert_video_in_cache cache_id video_id)

/-- The step taken by `greedy`: `greedy_next` yields
`(benefit, (video_id, cache_id))` and the loop inserts `(cache_id,
video_id)`. -/
def greedyStep (s : State) : Option (Nat × Nat) :=
  (greedy_next s).map (fun t => (t.2.2, t.2.1))

/-- `greedy`: the basic-strategy loop. -/
def greedy (fuel : Nat) (s : State) : State :=
  runLoop greedyStep fuel s

/-- The per-request-description candidate list of the advanced strategy
(`request_description_scores` in `main`): one `(cache_id, video_id,
((latency - cache_latency) * amount) / size)` triple per connection,
unless the video is larger than the cache capacity (`u32` arithmetic:
wrapping subtraction and multiplication, then integer division). -/
def scoreEntry (inp : Input) (rd : RequestDescription) : List (Nat × Nat × Nat) :=
  let e := inp.endpoints.getD rd.endpoint_id default
  let v := inp.videos.getD rd.video_id default
  e.cache_connections.filterMap (fun p =>
    if inp.cache_size < v.size then none
    else some (p.1, rd.video_id, wrap32 (usub32 e.latency p.2 * rd.amount) / v.size))

/-- `request_description_scores` in `main`. -/
def request_description_scores (inp : Input) : List (List (Nat × Nat × Nat)) :=
  inp.request_descriptions.map (fun rd => scoreEntry inp rd)

/-- One `HashMap` accumulation step (`entry(key).or_insert(0); *v += x`):
modelled on an association list keyed by `(Nat × Nat)`, appending unseen
keys at the end; the `u32` `+=` wraps. -/
def accumInMap (m : List ((Nat × Nat) × Nat)) (key : Nat × Nat) (x : Nat) :
    List ((Nat × Nat) × Nat) :=
  match m with
  | [] => [(key, wrap32 x)]
  | (k, s) :: rest =>
    if k = key then (k, wrap32 (s + x)) :: rest else (k, s) :: accumInMap rest key x

/-- The `cache_latency_scores` map of `main`: sum the per-entry candidate
benefits sharing a `(cache_id, video_id)` key. -/
def aggregateScores (ll : List (List (Nat × Nat × Nat))) : List ((Nat × Nat) × Nat) :=
  ll.foldl (fun m l => l.foldl (fun m t => accumInMap m (t.1, t.2.1) t.2.2) m) []

/-- The map-to-vector step of `main`
(`.map(|(&(cache_id, video_id), &score)| (cache_id, video_id, score))`). -/
def tripleList (m : List ((Nat × Nat) × Nat)) : List (Nat × Nat × Nat) :=
  m.map (fun p => (p.1.1, p.1.2, p.2))

/-- The ranked candidate list of `main`: flatten an enumeration of the
score map and stable-sort descending by score
(`sort_by(|a, b| b.2.cmp(&a.2))`).  Rust's `sort_by` is a stable sort and
a stable sort's output is uniquely determined by the comparator and the
input order, so it is modelled by the stable `List.insertionSort`.  The
enumeration argument models the `HashMap`'s arbitrary iteration order: the
program may observe any permutation of the map's entries here. -/
def rankEntries (enum : List ((Nat × Nat) × Nat)) : List (Nat × Nat × Nat) :=
  List.insertionSort (fun a b => b.2.2 ≤ a.2.2) (tripleList enum)

/-- The admissibility scan of `main`'s placement loop: the first triple
whose cache has room for the video and does not yet store it.  (`find_any`
may return any matching triple; the first match is the canonical choice —
no theorem below depends on which match is taken.) -/
def State.findCandidate (s : State) (scores : List (Nat × Nat × Nat)) :
    Option (Nat × Nat × Nat) :=
  scores.find? (fun t =>
    s.fitsCache t.1 t.2.1 && !(decide (t.2.1 ∈ s.storedSet t.1)))

/-- The step taken by `main`'s placement loop. -/
def advanceStep (scores : List (Nat × Nat × Nat)) (s : State) : Option (Nat × Nat) :=
  (s.findCandidate scores).map (fun t => (t.1, t.2.1))

/-- `main`'s placement loop (the advanced strategy). -/
def mainLoop (scores : List (Nat × Nat × Nat)) (fuel : Nat) (s : State) : State :=
  runLoop (advanceStep scores) fuel s

/-- The deduplication fold of `parse_input` over raw
`(video_id, endpoint_id, amount)` triples
(`request_descriptions.entry((video_id, endpoint_id)).or_insert(..); .amount += amount`). -/
def aggregateRequests (l : List (Nat × Nat × Nat)) : List ((Nat × Nat) × Nat) :=
  l.foldl (fun m t => accumInMap m (t.1, t.2.1) t.2.2) []

/-- The final `request_descriptions` collection built by `parse_input`
from the deduplication map. -/
def dedupedRequests (l : List (Nat × Nat × Nat)) : List RequestDescription :=
  (aggregateRequests l).map (fun p =>
    { amount := p.2, video_id := p.1.1, endpoint_id := p.1.2 })

/-- Association-list lookup for the deduplication and score maps. -/
def lookupAmount (m : List ((Nat × Nat) × Nat)) (k : Nat × Nat) : Option Nat :=
  (m.find? (fun p => decide (p.1 = k))).map (fun p => p.2)

/-! ## Validity predicates and the allocation-state invariant -/

/-- Input sizes small enough that the `u32`-to-`i32` casts in the capacity
check and the `u32` usage counters never wrap: the uniform cache capacity
and all video sizes fit in 31 bits. -/
def SmallInput (inp : Input) : Prop :=
  inp.cache_size < 2 ^ 31 ∧ ∀ v ∈ inp.videos, v.size < 2 ^ 31

/-- The Allocation State invariant of the spec: each cache's usage counter
equals the summed sizes of its stored videos and never exceeds the
capacity (plus the bookkeeping fact that both per-cache vectors have one
slot per cache). -/
def StateInv (s : State) : Prop :=
  s.cached_videos.length = s.input.numCaches ∧
  s.cache_usage.length = s.input.numCaches ∧
  ∀ c : Nat, s.usageOf c = ((s.storedSet c).sum fun v => sizeOfVid s.input v) ∧
    s.usageOf c ≤ s.input.cache_size

theorem getD_set_self {α : Type} {l : List α} {i : Nat} {a d : α} (h : i < l.length) :
    (l.set i a).getD i d = a := by
  rw [List.getD_eq_getElem?_getD, List.getElem?_set_self h]; rfl

theorem getD_set_ne {α : Type} {l : List α} {i j : Nat} {a d : α} (h : i ≠ j) :
    (l.set i a).getD j d = l.getD j d := by
  rw [List.getD_eq_getElem?_getD, List.getElem?_set_ne h, ← List.getD_eq_getElem?_getD]

theorem getD_replicate {α : Type} {n m : Nat} {a : α} :
    (List.replicate n a).getD m a = a := by
  rw [List.getD_eq_getElem?_getD, List.getElem?_replicate]
  split <;> rfl

theorem sizeOfVid_small {inp : Input} (h : SmallInput inp) (v : Nat) :
    sizeOfVid inp v < 2 ^ 31 := by
  unfold sizeOfVid
  rcases Nat.lt_or_ge v inp.videos.length with hv | hv
  · rw [List.getD_eq_getElem _ _ hv]
    exact h.2 _ (List.getElem_mem hv)
  · rw [List.getD_eq_getElem?_getD, List.getElem?_eq_none hv]
    decide

theorem inv_new (input : Input) : StateInv (State.new input) := by
  refine ⟨List.length_replicate _ _, List.length_replicate _ _, fun c => ?_⟩
  have hu : (State.new input).usageOf c = 0 := getD_replicate
  have hs : (State.new input).storedSet c = ∅ := getD_replicate
  rw [hu, hs]
  simp

theorem insert_input (s : State) (c v : Nat) :
    (s.insert_video_in_cache c v).input = s.input := rfl

theorem fitsCache_sound {s : State} (hsm : SmallInput s.input) (hinv : StateInv s) {c v : Nat}
    (h : s.fitsCache c v = true) :
    s.usageOf c + sizeOfVid s.input v ≤ s.input.cache_size := by
  have hcs : s.input.cache_size < 2 ^ 31 := hsm.1
  have hu : s.usageOf c ≤ s.input.cache_size := (hinv.2.2 c).2
  have hsz := sizeOfVid_small hsm v
  unfold State.fitsCache at h
  rw [decide_eq_true_eq] at h
  rw [toI32_of_lt hsz, toI32_of_lt hcs, toI32_of_lt (lt_of_le_of_lt hu hcs)] at h
  omega

theorem inv_insert {s : State} {c v : Nat} (hinv : StateInv s) (hsm : SmallInput s.input)
    (hnotin : v ∉ s.storedSet c)
    (hfit : s.usageOf c + sizeOfVid s.input v ≤ s.input.cache_size) :
    StateInv (s.insert_video_in_cache c v) := by
  obtain ⟨h1, h2, h3⟩ := hinv
  by_cases hc : c < s.input.numCaches
  · have hc1 : c < s.cached_videos.length := h1 ▸ hc
    have hc2 : c < s.cache_usage.length := h2 ▸ hc
    refine ⟨by simpa [State.insert_video_in_cache] using h1,
      by simpa [State.insert_video_in_cache] using h2, fun d => ?_⟩
    by_cases hcd : c = d
    · subst hcd
      have hu : (s.insert_video_in_cache c v).usageOf c =
          wrap32 (s.usageOf c + sizeOfVid s.input v) := getD_set_self hc2
      have hst : (s.insert_video_in_cache c v).storedSet c =
          insert v (s.storedSet c) := getD_set_self hc1
      have hw : s.usageOf c + sizeOfVid s.input v < 2 ^ 32 :=
        lt_of_le_of_lt hfit (lt_trans hsm.1 (by norm_num))
      rw [hu, hst, wrap32_eq_of_lt hw, insert_input, Finset.sum_insert hnotin,
        ← (h3 c).1]
      exact ⟨by omega, hfit⟩
    · have hu : (s.insert_video_in_cache c v).usageOf d = s.usageOf d := getD_set_ne hcd
      have hst : (s.insert_video_in_cache c v).storedSet d = s.storedSet d :=
        getD_set_ne hcd
      rw [hu, hst, insert_input]
      exact h3 d
  · have e1 : (s.insert_video_in_cache c v).cache_usage = s.cache_usage :=
      List.set_eq_of_length_le (by omega)
    have e2 : (s.insert_video_in_cache c v).cached_videos = s.cached_videos :=
      List.set_eq_of_length_le (by omega)
    refine ⟨by rw [e2]; exact h1, by rw [e1]; exact h2, fun d => ?_⟩
    have hu : (s.insert_video_in_cache c v).usageOf d = s.usageOf d := by
      unfold State.usageOf; rw [e1]
    have hst : (s.insert_video_in_cache c v).storedSet d = s.storedSet d := by
      unfold State.storedSet; rw [e2]
    rw [hu, hst, insert_input]
    exact h3 d

/-! ## Generic loop lemmas -/

theorem runLoop_input (next : State → Option (Nat × Nat)) :
    ∀ (fuel : Nat) (s : State), (runLoop next fuel s).input = s.input := by
  intro fuel
  induction fuel with
  | zero => intro s; rfl
  | succ n ih =>
    intro s
    unfold runLoop
    cases hn : next s with
    | none => rfl
    | some p => rw [ih]; rfl

theorem runLoop_none (next : State → Option (Nat × Nat)) {s : State}
    (h : next s = none) (fuel : Nat) : runLoop next fuel s = s := by
  cases fuel with
  | zero => rfl
  | succ n => unfold runLoop; rw [h]

theorem runLoop_succ_some (next : State → Option (Nat × Nat)) {s : State}
    {p : Nat × Nat} (h : next s = some p) (fuel : Nat) :
    runLoop next (fuel + 1) s =
      runLoop next fuel (s.insert_video_in_cache p.1 p.2) := by
  conv in runLoop next (fuel + 1) s => rw [runLoop]
  rw [h]

theorem findCandidate_spec {s : State} {scores : List (Nat × Nat × Nat)}
    {t : Nat × Nat × Nat} (h : s.findCandidate scores = some t) :
    t ∈ scores ∧ s.fitsCache t.1 t.2.1 = true ∧ t.2.1 ∉ s.storedSet t.1 := by
  refine ⟨List.mem_of_find?_eq_some h, ?_⟩
  have hp := List.find?_some h
  simpa using hp

theorem findCandidate_none {s : State} {scores : List (Nat × Nat × Nat)}
    (h : s.findCandidate scores = none) :
    ∀ t ∈ scores, s.fitsCache t.1 t.2.1 = false ∨ t.2.1 ∈ s.storedSet t.1 := by
  intro t ht
  have := List.find?_eq_none.1 h t ht
  by_cases hf : s.fitsCache t.1 t.2.1
  · right
    by_contra hmem
    exact this (by simp [hf, hmem])
  · left; simpa using hf

theorem stepSpec_advance {scores : List (Nat × Nat × Nat)} {s : State} {c v : Nat}
    (hinv : StateInv s) (hsm : SmallInput s.input) (h : advanceStep scores s = some (c, v)) :
    v ∉ s.storedSet c ∧ s.usageOf c + sizeOfVid s.input v ≤ s.input.cache_size := by
  unfold advanceStep at h
  cases hf : s.findCandidate scores with
  | none => rw [hf] at h; simp at h
  | some t =>
    rw [hf] at h
    simp only [Option.map_some'] at h
    obtain ⟨hc, hv⟩ : t.1 = c ∧ t.2.1 = v := by
      injection h with h1
      exact ⟨congrArg Prod.fst h1, congrArg Prod.snd h1⟩
    obtain ⟨hmem, hfits, hnot⟩ := findCandidate_spec hf
    subst hc; subst hv
    exact ⟨hnot, fitsCache_sound hsm hinv hfits⟩

theorem runLoop_inv (next : State → Option (Nat × Nat))
    (hstep : ∀ s' c v, StateInv s' → SmallInput s'.input → next s' = some (c, v) →
      v ∉ s'.storedSet c ∧ s'.usageOf c + sizeOfVid s'.input v ≤ s'.input.cache_size) :
    ∀ (fuel : Nat) {s : State}, StateInv s → SmallInput s.input → StateInv (runLoop next fuel s) := by
  intro fuel
  induction fuel with
  | zero => intro s hinv _; exact hinv
  | succ n ih =>
    intro s hinv hsm
    unfold runLoop
    cases hn : next s with
    | none => exact hinv
    | some p =>
      obtain ⟨hnotin, hfit⟩ := hstep s p.1 p.2 hinv hsm (by rw [hn])
      exact ih (inv_insert hinv hsm hnotin hfit) hsm

/-! ## Lemmas about the basic strategy's max-reduction and candidates -/

theorem maxStep_none (x : Nat × (Nat × Nat)) : maxStep none x = some x := rfl

theorem maxStep_some (y x : Nat × (Nat × Nat)) :
    maxStep (some y) x = if y.1 ≤ x.1 then some x else some y := rfl

theorem maxByFst_mem_aux :
    ∀ (l : List (Nat × (Nat × Nat))) (acc : Option (Nat × (Nat × Nat)))
      (m : Nat × (Nat × Nat)),
      l.foldl maxStep acc = some m → m ∈ l ∨ acc = some m := by
  intro l
  induction l with
  | nil => intro acc m h; right; exact h
  | cons a t ih =>
    intro acc m h
    rw [List.foldl_cons] at h
    rcases ih (maxStep acc a) m h with hm | hm
    · left; exact List.mem_cons_of_mem a hm
    · cases acc with
      | none =>
        left
        rw [maxStep_none] at hm
        have : a = m := by simpa using hm
        rw [this]; exact List.mem_cons_self _ _
      | some y =>
        rw [maxStep_some] at hm
        by_cases hy : y.1 ≤ a.1
        · left
          rw [if_pos hy] at hm
          have : a = m := by simpa using hm
          rw [this]; exact List.mem_cons_self _ _
        · right
          rw [if_neg hy] at hm
          exact hm

theorem maxByFst_mem {l : List (Nat × (Nat × Nat))} {m : Nat × (Nat × Nat)}
    (h : maxByFst l = some m) : m ∈ l := by
  rcases maxByFst_mem_aux l none m h with hm | hm
  · exact hm
  · exact absurd hm (by simp)

theorem maxByFst_ge_aux :
    ∀ (l : List (Nat × (Nat × Nat))) (acc : Option (Nat × (Nat × Nat)))
      (m : Nat × (Nat × Nat)),
      l.foldl maxStep acc = some m →
      (∀ x ∈ l, x.1 ≤ m.1) ∧ (∀ y, acc = some y → y.1 ≤ m.1) := by
  intro l
  induction l with
  | nil =>
    intro acc m h
    refine ⟨by simp, fun y hy => ?_⟩
    rw [List.foldl_nil] at h
    rw [hy] at h
    have : y = m := by simpa using h
    rw [this]
  | cons a t ih =>
    intro acc m h
    rw [List.foldl_cons] at h
    have ihh := ih (maxStep acc a) m h
    have hstep : ∀ z, maxStep acc a = some z → z.1 ≤ m.1 := ihh.2
    have ha : a.1 ≤ m.1 := by
      cases acc with
      | none => exact hstep a rfl
      | some y =>
        by_cases hy : y.1 ≤ a.1
        · exact hstep a (by rw [maxStep_some, if_pos hy])
        · exact le_trans (le_of_not_le hy)
            (hstep y (by rw [maxStep_some, if_neg hy]))
    refine ⟨fun x hx => ?_, fun y hy => ?_⟩
    · rcases List.mem_cons.1 hx with rfl | hx
      · exact ha
      · exact ihh.1 x hx
    · cases acc with
      | none => simp at hy
      | some z =>
        have hz : z = y := by simpa using hy
        subst hz
        by_cases hzv : z.1 ≤ a.1
        · exact le_trans hzv ha
        · exact hstep z (by rw [maxStep_some, if_neg hzv])

theorem maxByFst_ge {l : List (Nat × (Nat × Nat))} {m : Nat × (Nat × Nat)}
    (h : maxByFst l = some m) : ∀ x ∈ l, x.1 ≤ m.1 :=
  (maxByFst_ge_aux l none m h).1

theorem maxByFst_some_aux (y : Nat × (Nat × Nat)) :
    ∀ (l : List (Nat × (Nat × Nat))), l.foldl maxStep (some y) ≠ none := by
  intro l
  induction l generalizing y with
  | nil => simp
  | cons a t ih =>
    rw [List.foldl_cons, maxStep_some]
    by_cases hy : y.1 ≤ a.1
    · rw [if_pos hy]; exact ih a
    · rw [if_neg hy]; exact ih y

theorem maxByFst_eq_none {l : List (Nat × (Nat × Nat))} :
    maxByFst l = none ↔ l = [] := by
  constructor
  · intro h
    cases l with
    | nil => rfl
    | cons a t =>
      rw [maxByFst, List.foldl_cons, maxStep_none] at h
      exact absurd h (maxByFst_some_aux a t)
  · intro h; rw [h]; rfl

theorem greedyCandidates_mem {s : State} {cand : Nat × (Nat × Nat)}
    (h : cand ∈ s.greedyCandidates) :
    ∃ rd ∈ s.input.request_descriptions, ∃ p : Nat × Nat,
      s.is_caching rd.endpoint_id rd.video_id = false ∧
      (s.input.endpoints.getD rd.endpoint_id default).cache_connections.find?
        (fun q => s.fitsCache q.1 rd.video_id) = some p ∧
      cand = (wrap32 (usub32
        (s.input.endpoints.getD rd.endpoint_id default).latency p.2 * rd.amount),
        (rd.video_id, p.1)) := by
  rw [State.greedyCandidates, List.mem_filterMap] at h
  obtain ⟨rd, hrd, hf⟩ := h
  refine ⟨rd, hrd, ?_⟩
  by_cases hic : s.is_caching rd.endpoint_id rd.video_id
  · rw [if_pos hic] at hf; exact absurd hf (by simp)
  · rw [if_neg hic] at hf
    simp only at hf
    cases hfind : (s.input.endpoints.getD rd.endpoint_id default).cache_connections.find?
        (fun q => s.fitsCache q.1 rd.video_id) with
    | none => rw [hfind] at hf; exact absurd hf (by simp)
    | some p =>
      rw [hfind] at hf
      exact ⟨p, Bool.eq_false_iff.2 hic ▸ rfl, rfl, (Option.some_inj.1 hf).symm⟩

theorem is_caching_false_not_stored {s : State} {endpoint_id video_id : Nat}
    (h : s.is_caching endpoint_id video_id = false) :
    ∀ p ∈ (s.input.endpoints.getD endpoint_id default).cache_connections,
      video_id ∉ s.storedSet p.1 := by
  intro p hp
  have := List.any_eq_false.1 (by rw [← h]; rfl) p hp
  simpa using this

theorem stepSpec_greedy {s : State} {c v : Nat}
    (hinv : StateInv s) (hsm : SmallInput s.input) (h : greedyStep s = some (c, v)) :
    v ∉ s.storedSet c ∧ s.usageOf c + sizeOfVid s.input v ≤ s.input.cache_size := by
  unfold greedyStep greedy_next at h
  cases hg : maxByFst s.greedyCandidates with
  | none => rw [hg] at h; simp at h
  | some m =>
    rw [hg] at h
    simp only [Option.map_some'] at h
    obtain ⟨hc, hv⟩ : m.2.2 = c ∧ m.2.1 = v := by
      injection h with h1
      exact ⟨congrArg Prod.fst h1, congrArg Prod.snd h1⟩
    obtain ⟨rd, hrd, p, hic, hfind, hcand⟩ := greedyCandidates_mem (maxByFst_mem hg)
    have hm2 : m.2 = (rd.video_id, p.1) := by rw [hcand]
    have hveq : v = rd.video_id := by rw [← hv, hm2]
    have hceq : c = p.1 := by rw [← hc, hm2]
    subst hveq; subst hceq
    refine ⟨is_caching_false_not_stored hic p (List.mem_of_find?_eq_some hfind), ?_⟩
    have hfits : s.fitsCache p.1 rd.video_id = true := by
      simpa using List.find?_some hfind
    exact fitsCache_sound hsm hinv hfits

/-! ## Total usage and termination -/

/-- The total number of storage units in use, summed over all caches. -/
def totalUsage (s : State) : Nat := s.cache_usage.sum

theorem sum_set_add :
    ∀ (l : List Nat) (i d : Nat), i < l.length →
      (l.set i (l.getD i 0 + d)).sum = l.sum + d := by
  intro l
  induction l with
  | nil => intro i d h; simp at h
  | cons a t ih =>
    intro i d h
    cases i with
    | zero =>
      simp only [List.getD_cons_zero, List.set]
      simp [List.sum_cons]
      omega
    | succ n =>
      simp only [List.getD_cons_succ, List.set]
      simp only [List.sum_cons]
      rw [ih n d (by simpa using h)]
      omega

theorem totalUsage_insert {s : State} {c v : Nat} (hc : c < s.cache_usage.length)
    (hw : s.usageOf c + sizeOfVid s.input v < 2 ^ 32) :
    totalUsage (s.insert_video_in_cache c v) = totalUsage s + sizeOfVid s.input v := by
  show (s.cache_usage.set c (wrap32 (s.usageOf c + sizeOfVid s.input v))).sum =
    s.cache_usage.sum + sizeOfVid s.input v
  rw [wrap32_eq_of_lt hw]
  exact sum_set_add _ _ _ hc

theorem totalUsage_le {s : State} (hinv : StateInv s) :
    totalUsage s ≤ s.input.numCaches * s.input.cache_size := by
  have h : ∀ x ∈ s.cache_usage, x ≤ s.input.cache_size := by
    intro x hx
    obtain ⟨i, hi, hix⟩ := List.mem_iff_getElem.1 hx
    have := (hinv.2.2 i).2
    rw [State.usageOf, List.getD_eq_getElem _ _ hi, hix] at this
    exact this
  calc totalUsage s ≤ s.cache_usage.length • s.input.cache_size :=
        List.sum_le_card_nsmul _ _ h
    _ = s.input.numCaches * s.input.cache_size := by
        rw [smul_eq_mul, hinv.2.1]

theorem runLoop_usage_lower (next : State → Option (Nat × Nat)) (inp : Input) (msz : Nat)
    (hstep : ∀ s' c v, StateInv s' → SmallInput s'.input → next s' = some (c, v) →
      v ∉ s'.storedSet c ∧ s'.usageOf c + sizeOfVid s'.input v ≤ s'.input.cache_size)
    (hgrow : ∀ s' c v, s'.input = inp → StateInv s' → next s' = some (c, v) →
      c < inp.numCaches ∧ msz ≤ sizeOfVid inp v) :
    ∀ (k : Nat) (s : State), s.input = inp → StateInv s → SmallInput inp →
      next (runLoop next k s) ≠ none →
      totalUsage s + (k + 1) * msz ≤ totalUsage (runLoop next (k + 1) s) := by
  intro k
  induction k with
  | zero =>
    intro s hsinp hinv hsm hne
    have h0 : runLoop next 0 s = s := rfl
    rw [h0] at hne
    cases hn : next s with
    | none => exact absurd hn hne
    | some p =>
      rw [runLoop_succ_some next hn 0]
      have hsm' : SmallInput s.input := hsinp ▸ hsm
      obtain ⟨hnotin, hfit⟩ := hstep s p.1 p.2 hinv hsm' (by rw [hn])
      obtain ⟨hcn, hmsz⟩ := hgrow s p.1 p.2 hsinp hinv (by rw [hn])
      have hclen : p.1 < s.cache_usage.length := by rw [hinv.2.1, hsinp]; exact hcn
      have hw : s.usageOf p.1 + sizeOfVid s.input p.2 < 2 ^ 32 :=
        lt_of_le_of_lt hfit (lt_trans hsm'.1 (by norm_num))
      have h1 : runLoop next 0 (s.insert_video_in_cache p.1 p.2) =
          s.insert_video_in_cache p.1 p.2 := rfl
      rw [h1, totalUsage_insert hclen hw]
      have : msz ≤ sizeOfVid s.input p.2 := by rw [hsinp]; exact hmsz
      omega
  | succ k ih =>
    intro s hsinp hinv hsm hne
    cases hn : next s with
    | none =>
      rw [runLoop_none next hn] at hne
      exact absurd hn hne
    | some p =>
      have hsm' : SmallInput s.input := hsinp ▸ hsm
      obtain ⟨hnotin, hfit⟩ := hstep s p.1 p.2 hinv hsm' (by rw [hn])
      obtain ⟨hcn, hmsz⟩ := hgrow s p.1 p.2 hsinp hinv (by rw [hn])
      have hclen : p.1 < s.cache_usage.length := by rw [hinv.2.1, hsinp]; exact hcn
      have hw : s.usageOf p.1 + sizeOfVid s.input p.2 < 2 ^ 32 :=
        lt_of_le_of_lt hfit (lt_trans hsm'.1 (by norm_num))
      have hinv' : StateInv (s.insert_video_in_cache p.1 p.2) :=
        inv_insert hinv hsm' hnotin hfit
      have hinp' : (s.insert_video_in_cache p.1 p.2).input = inp := hsinp
      have hne' : next (runLoop next k (s.insert_video_in_cache p.1 p.2)) ≠ none := by
        rw [← runLoop_succ_some next hn k]; exact hne
      have hih := ih (s.insert_video_in_cache p.1 p.2) hinp' hinv' hsm hne'
      rw [← runLoop_succ_some next hn (k + 1)] at hih
      rw [totalUsage_insert hclen hw] at hih
      have hsz : msz ≤ sizeOfVid s.input p.2 := by rw [hsinp]; exact hmsz
      have e1 : (k + 1 + 1) * msz = (k + 1) * msz + msz := by rw [Nat.succ_mul]
      omega

theorem runLoop_fixpoint (next : State → Option (Nat × Nat)) (inp : Input) (msz : Nat)
    (hmsz : 0 < msz)
    (hstep : ∀ s' c v, StateInv s' → SmallInput s'.input → next s' = some (c, v) →
      v ∉ s'.storedSet c ∧ s'.usageOf c + sizeOfVid s'.input v ≤ s'.input.cache_size)
    (hgrow : ∀ s' c v, s'.input = inp → StateInv s' → next s' = some (c, v) →
      c < inp.numCaches ∧ msz ≤ sizeOfVid inp v)
    {s : State} (hsinp : s.input = inp) (hinv : StateInv s) (hsm : SmallInput inp)
    (h0 : totalUsage s = 0) :
    next (runLoop next (inp.numCaches * inp.cache_size / msz) s) = none := by
  by_contra h
  have hlow := runLoop_usage_lower next inp msz hstep hgrow
    (inp.numCaches * inp.cache_size / msz) s hsinp hinv hsm h
  have hinvN : StateInv (runLoop next (inp.numCaches * inp.cache_size / msz + 1) s) :=
    runLoop_inv next hstep _ hinv (hsinp ▸ hsm)
  have hbound := totalUsage_le hinvN
  rw [runLoop_input, hsinp] at hbound
  have hdm := Nat.div_add_mod (inp.numCaches * inp.cache_size) msz
  have hml : inp.numCaches * inp.cache_size % msz < msz := Nat.mod_lt _ hmsz
  have e1 : (inp.numCaches * inp.cache_size / msz + 1) * msz =
      inp.numCaches * inp.cache_size / msz * msz + msz := by rw [Nat.succ_mul]
  have e2 : msz * (inp.numCaches * inp.cache_size / msz) =
      inp.numCaches * inp.cache_size / msz * msz := Nat.mul_comm _ _
  omega

/-! ## Smallest video size and per-strategy growth facts -/

/-- The smallest video size of the model (the `min(video size)` of the
spec's termination bound); 0 for an empty video list. -/
def minVideoSize (inp : Input) : Nat := ((inp.videos.map Video.size).min?).getD 0

theorem minVideoSize_le {inp : Input} {v : Nat} (hv : v < inp.videos.length) :
    minVideoSize inp ≤ sizeOfVid inp v := by
  have hmem : sizeOfVid inp v ∈ inp.videos.map Video.size := by
    unfold sizeOfVid
    rw [List.getD_eq_getElem _ _ hv]
    exact List.mem_map_of_mem _ (List.getElem_mem hv)
  cases hm : (inp.videos.map Video.size).min? with
  | none =>
    rw [List.min?_eq_none_iff] at hm
    rw [hm] at hmem
    simp at hmem
  | some m =>
    have h2 := (List.min?_eq_some_iff (fun a => le_refl a) (fun a b => min_choice a b)
      (fun a b c => le_min_iff)).1 hm
    unfold minVideoSize
    rw [hm]
    exact h2.2 _ hmem

theorem minVideoSize_pos {inp : Input} (hne : inp.videos ≠ [])
    (hpos : ∀ v ∈ inp.videos, 0 < v.size) : 0 < minVideoSize inp := by
  cases hm : (inp.videos.map Video.size).min? with
  | none =>
    rw [List.min?_eq_none_iff, List.map_eq_nil_iff] at hm
    exact absurd hm hne
  | some m =>
    have h2 := (List.min?_eq_some_iff (fun a => le_refl a) (fun a b => min_choice a b)
      (fun a b c => le_min_iff)).1 hm
    obtain ⟨vv, hvv, hveq⟩ := List.mem_map.1 h2.1
    unfold minVideoSize
    rw [hm]
    simpa [hveq] using hpos vv hvv

theorem conns_valid {inp : Input}
    (hconn : ∀ e ∈ inp.endpoints, ∀ p ∈ e.cache_connections, p.1 < inp.numCaches)
    (eid : Nat) :
    ∀ p ∈ (inp.endpoints.getD eid default).cache_connections, p.1 < inp.numCaches := by
  rcases Nat.lt_or_ge eid inp.endpoints.length with h | h
  · rw [List.getD_eq_getElem _ _ h]
    exact hconn _ (List.getElem_mem h)
  · rw [List.getD_eq_getElem?_getD, List.getElem?_eq_none h]
    intro p hp
    have hd : (Option.getD (none : Option Endpoint) default).cache_connections =
        ([] : List (Nat × Nat)) := rfl
    rw [hd] at hp
    simp at hp

theorem growth_advance {input : Input} {scores : List (Nat × Nat × Nat)}
    (hsc : ∀ t ∈ scores, t.1 < input.numCaches ∧ t.2.1 < input.videos.length) :
    ∀ s' c v, s'.input = input → StateInv s' → advanceStep scores s' = some (c, v) →
      c < input.numCaches ∧ minVideoSize input ≤ sizeOfVid input v := by
  intro s' c v _ _ h
  unfold advanceStep at h
  cases hf : s'.findCandidate scores with
  | none => rw [hf] at h; simp at h
  | some t =>
    rw [hf] at h
    simp only [Option.map_some'] at h
    obtain ⟨hc, hv⟩ : t.1 = c ∧ t.2.1 = v := by
      injection h with h1
      exact ⟨congrArg Prod.fst h1, congrArg Prod.snd h1⟩
    obtain ⟨h1, h2⟩ := hsc t (findCandidate_spec hf).1
    subst hc; subst hv
    exact ⟨h1, minVideoSize_le h2⟩

theorem growth_greedy {input : Input}
    (hrd : ∀ rd ∈ input.request_descriptions, rd.video_id < input.videos.length)
    (hconn : ∀ e ∈ input.endpoints, ∀ p ∈ e.cache_connections, p.1 < input.numCaches) :
    ∀ s' c v, s'.input = input → StateInv s' → greedyStep s' = some (c, v) →
      c < input.numCaches ∧ minVideoSize input ≤ sizeOfVid input v := by
  intro s' c v hsinp _ h
  unfold greedyStep greedy_next at h
  cases hg : maxByFst s'.greedyCandidates with
  | none => rw [hg] at h; simp at h
  | some m =>
    rw [hg] at h
    simp only [Option.map_some'] at h
    obtain ⟨hc, hv⟩ : m.2.2 = c ∧ m.2.1 = v := by
      injection h with h1
      exact ⟨congrArg Prod.fst h1, congrArg Prod.snd h1⟩
    obtain ⟨rd, hrdm, p, hic, hfind, hcand⟩ := greedyCandidates_mem (maxByFst_mem hg)
    have hm2 : m.2 = (rd.video_id, p.1) := by rw [hcand]
    have hveq : v = rd.video_id := by rw [← hv, hm2]
    have hceq : c = p.1 := by rw [← hc, hm2]
    subst hveq; subst hceq
    rw [hsinp] at hrdm hfind
    constructor
    · exact conns_valid hconn rd.endpoint_id p (List.mem_of_find?_eq_some hfind)
    · exact minVideoSize_le (hrd rd hrdm)

theorem totalUsage_new (input : Input) : totalUsage (State.new input) = 0 := by
  show (List.replicate input.numCaches 0).sum = 0
  rw [List.sum_replicate, smul_zero]

/-! ## Claim C1 -/

/-- C1: for every cache `c`, at every point during and after optimization
— i.e. after every prefix (`fuel` iterations) of either strategy's loop,
starting from the empty Allocation State — `usage[c]` equals the summed
sizes of the videos stored in `c` and never exceeds the capacity
(`StateInv`); moreover an insertion that would exceed the cache's capacity
is never performed: whenever either loop's step selects a `(cache, video)`
pair, the insertion stays within capacity.  Hypothesis: the capacity and
the video sizes fit in 31 bits, so the program's `as i32` casts in the
admissibility check and its `u32` usage counters are exact. -/
theorem c1_capacity_invariant (input : Input) (scores : List (Nat × Nat × Nat))
    (fuel : Nat) (hsm : SmallInput input) :
    (StateInv (mainLoop scores fuel (State.new input)) ∧
     StateInv (greedy fuel (State.new input))) ∧
    (∀ s : State, StateInv s → SmallInput s.input →
      ∀ c v, (advanceStep scores s = some (c, v) ∨ greedyStep s = some (c, v)) →
        s.usageOf c + sizeOfVid s.input v ≤ s.input.cache_size) := by
  constructor
  · constructor
    · exact runLoop_inv _ (fun s' c v hi hs h => stepSpec_advance hi hs h) fuel
        (inv_new input) hsm
    · exact runLoop_inv _ (fun s' c v hi hs h => stepSpec_greedy hi hs h) fuel
        (inv_new input) hsm
  · intro s hinv hsm' c v h
    rcases h with h | h
    · exact (stepSpec_advance hinv hsm' h).2
    · exact (stepSpec_greedy hinv hsm' h).2

/-- The small concrete demand model used by witnesses (the spec's
"trivial fit" scenario). -/
def witInput : Input :=
  { videos := [{ size := 50 }]
    endpoints := [{ latency := 1000, cache_connections := [(0, 100)] }]
    numCaches := 1
    cache_size := 100
    request_descriptions := [{ amount := 10, video_id := 0, endpoint_id := 0 }] }

/-- The ranked candidate list the program computes for `witInput`. -/
def witScores : List (Nat × Nat × Nat) :=
  rankEntries (aggregateScores (request_description_scores witInput))

theorem c1_capacity_invariant_witness :
    StateInv (mainLoop witScores 2 (State.new witInput)) ∧
    StateInv (greedy 2 (State.new witInput)) :=
  (c1_capacity_invariant witInput witScores 2 ⟨by decide, by decide⟩).1

/-! ## Claim C3 -/

/-- C3: for every valid Demand Model (video sizes positive, ids in range,
sizes small enough for the `u32`/`i32` arithmetic to be exact), the Greedy
Optimizer always terminates, and within `Σ capacity / min(video size)`
iterations: running either strategy's loop for
`numCaches * cache_size / minVideoSize` iterations from the empty state
reaches a state where no further candidate exists (`TERMINATED`), and each
productive iteration strictly grows the usage of the cache it inserts
into. -/
theorem c3_optimizer_terminates (input : Input) (scores : List (Nat × Nat × Nat))
    (hsm : SmallInput input)
    (hne : input.videos ≠ [])
    (hpos : ∀ v ∈ input.videos, 0 < v.size)
    (hsc : ∀ t ∈ scores, t.1 < input.numCaches ∧ t.2.1 < input.videos.length)
    (hrd : ∀ rd ∈ input.request_descriptions, rd.video_id < input.videos.length)
    (hconn : ∀ e ∈ input.endpoints, ∀ p ∈ e.cache_connections, p.1 < input.numCaches) :
    ((mainLoop scores (input.numCaches * input.cache_size / minVideoSize input)
        (State.new input)).findCandidate scores = none ∧
     greedy_next (greedy (input.numCaches * input.cache_size / minVideoSize input)
        (State.new input)) = none) ∧
    (∀ s : State, s.input = input → StateInv s →
      ∀ c v, (advanceStep scores s = some (c, v) ∨ greedyStep s = some (c, v)) →
        s.usageOf c < (s.insert_video_in_cache c v).usageOf c) := by
  have hmsz : 0 < minVideoSize input := minVideoSize_pos hne hpos
  constructor
  · constructor
    · have := runLoop_fixpoint (advanceStep scores) input (minVideoSize input) hmsz
        (fun s' c v hi hs h => stepSpec_advance hi hs h)
        (growth_advance hsc) (rfl : (State.new input).input = input)
        (inv_new input) hsm (totalUsage_new input)
      unfold advanceStep at this
      exact Option.map_eq_none'.1 this
    · have := runLoop_fixpoint greedyStep input (minVideoSize input) hmsz
        (fun s' c v hi hs h => stepSpec_greedy hi hs h)
        (growth_greedy hrd hconn) (rfl : (State.new input).input = input)
        (inv_new input) hsm (totalUsage_new input)
      unfold greedyStep at this
      exact Option.map_eq_none'.1 this
  · intro s hsinp hinv c v h
    have hsm' : SmallInput s.input := hsinp ▸ hsm
    have hfacts : v ∉ s.storedSet c ∧
        s.usageOf c + sizeOfVid s.input v ≤ s.input.cache_size := by
      rcases h with h | h
      · exact stepSpec_advance hinv hsm' h
      · exact stepSpec_greedy hinv hsm' h
    have hgrowf : c < input.numCaches ∧ minVideoSize input ≤ sizeOfVid input v := by
      rcases h with h | h
      · exact growth_advance hsc s c v hsinp hinv h
      · exact growth_greedy hrd hconn s c v hsinp hinv h
    have hclen : c < s.cache_usage.length := by rw [hinv.2.1, hsinp]; exact hgrowf.1
    have hw : s.usageOf c + sizeOfVid s.input v < 2 ^ 32 :=
      lt_of_le_of_lt hfacts.2 (lt_trans hsm'.1 (by norm_num))
    have hu : (s.insert_video_in_cache c v).usageOf c =
        wrap32 (s.usageOf c + sizeOfVid s.input v) := getD_set_self hclen
    rw [hu, wrap32_eq_of_lt hw]
    have hszpos : 0 < sizeOfVid s.input v := by
      rw [hsinp]; exact lt_of_lt_of_le hmsz hgrowf.2
    omega

theorem c3_optimizer_terminates_witness :
    ((mainLoop witScores
        (witInput.numCaches * witInput.cache_size / minVideoSize witInput)
        (State.new witInput)).findCandidate witScores = none ∧
     greedy_next (greedy
        (witInput.numCaches * witInput.cache_size / minVideoSize witInput)
        (State.new witInput)) = none) :=
  (c3_optimizer_terminates witInput witScores ⟨by decide, by decide⟩ (by decide)
    (by decide) (by decide) (by decide) (by decide)).1

/-- A demand model with one request of amount 0 (zero total demand). -/
def c5Input : Input :=
  { videos := [{ size := 50 }]
    endpoints := [{ latency := 1000, cache_connections := [(0, 100)] }]
    numCaches := 1
    cache_size := 100
    request_descriptions := [{ amount := 0, video_id := 0, endpoint_id := 0 }] }

/-! ## Claim C5: zero total demand -/

theorem scoreTerm_of_amount_zero {s : State} {rd : RequestDescription}
    (h : rd.amount = 0) : s.scoreTerm rd = 0 := by
  unfold State.scoreTerm
  dsimp only
  cases hf : s.findLatency (s.input.endpoints.getD rd.endpoint_id default)
      rd.video_id with
  | none => rfl
  | some lat => rw [h]; simp [wrap32]

/-- C5: when the total demand is zero (`sum_requests = 0`), the Plan
Evaluator does not crash and reports the normalized score as 0 — in the
code `0.0 / 0.0` is `NaN` and Rust's saturating `as u32` cast maps `NaN`
to 0; equivalently, every amount is 0, so `sum_latency` is 0 as well and
the whole score pair is `(0, 0)`. -/
theorem c5_zero_demand_score (s : State) (h : sumRequests s.input = 0) :
    s.score = (0, 0) := by
  have hall : ∀ rd ∈ s.input.request_descriptions, rd.amount = 0 := by
    intro rd hrd
    have := List.sum_eq_zero_iff.1 h (rd.amount)
      (List.mem_map_of_mem (fun rd => rd.amount) hrd)
    exact this
  have hlat : (s.input.request_descriptions.map (fun rd => s.scoreTerm rd)).sum = 0 := by
    apply List.sum_eq_zero
    intro x hx
    obtain ⟨rd, hrd, rfl⟩ := List.mem_map.1 hx
    exact scoreTerm_of_amount_zero (hall rd hrd)
  unfold State.score
  rw [hlat, h]
  rfl

theorem c5_zero_demand_score_witness : (State.new c5Input).score = (0, 0) :=
  c5_zero_demand_score (State.new c5Input) (by decide)

/-! ## Claim C2: the Plan Evaluator against the spec's description -/

/-- Ascending-by-latency sortedness of a connection list, as Boolean
chain. `parse_input` sorts each endpoint's connections by link latency. -/
def connsSorted : List (Nat × Nat) → Bool
  | [] => true
  | [_] => true
  | a :: b :: t => decide (a.2 ≤ b.2) && connsSorted (b :: t)

theorem connsSorted_tail {a : Nat × Nat} {t : List (Nat × Nat)}
    (h : connsSorted (a :: t) = true) : connsSorted t = true := by
  cases t with
  | nil => rfl
  | cons b t' =>
    unfold connsSorted at h
    rw [Bool.and_eq_true] at h
    exact h.2

theorem connsSorted_head_le {a : Nat × Nat} {t : List (Nat × Nat)}
    (h : connsSorted (a :: t) = true) : ∀ y ∈ t, a.2 ≤ y.2 := by
  induction t generalizing a with
  | nil => simp
  | cons b t' ih =>
    intro y hy
    unfold connsSorted at h
    rw [Bool.and_eq_true] at h
    have hab : a.2 ≤ b.2 := of_decide_eq_true h.1
    rcases List.mem_cons.1 hy with rfl | hy'
    · exact hab
    · exact le_trans hab (ih h.2 y hy')

theorem find?_sorted_min {l : List (Nat × Nat)} {p : Nat × Nat → Bool} {x : Nat × Nat}
    (hs : connsSorted l = true) (hf : l.find? p = some x) :
    ∀ y ∈ l, p y = true → x.2 ≤ y.2 := by
  induction l with
  | nil => simp at hf
  | cons a t ih =>
    intro y hy hpy
    rw [List.find?_cons] at hf
    by_cases hpa : p a
    · rw [hpa] at hf
      have hax : a = x := by simpa using hf
      rcases List.mem_cons.1 hy with rfl | hy'
      · rw [← hax]
      · rw [← hax]; exact connsSorted_head_le hs y hy'
    · rw [Bool.not_eq_true] at hpa
      rw [hpa] at hf
      rcases List.mem_cons.1 hy with rfl | hy'
      · rw [hpy] at hpa; simp at hpa
      · exact ih (connsSorted_tail hs) hf y hy' hpy

/-- Spec-modelled refinement comparator, following the spec's words: the
lowest link latency among the endpoint's reachable caches that actually
store the requested video (`none` when no reachable cache stores it, in
which case the entry is charged the datacenter latency and saves 0). -/
def specChosenLatency (s : State) (e : Endpoint) (video_id : Nat) : Option Nat :=
  ((e.cache_connections.filter
    (fun p => decide (video_id ∈ s.storedSet p.1))).map (fun p => p.2)).min?

/-- Spec-modelled saving of one demand entry:
`amount * (datacenter_latency - chosen_link_latency)` when a reachable
cache stores the video, 0 otherwise. -/
def specSaved (s : State) (rd : RequestDescription) : Nat :=
  let e := s.input.endpoints.getD rd.endpoint_id default
  match specChosenLatency s e rd.video_id with
  | some lat => rd.amount * (e.latency - lat)
  | none => 0

/-- Spec-modelled `sum_latency_saved`. -/
def specSumSaved (s : State) : Nat :=
  (s.input.request_descriptions.map (fun rd => specSaved s rd)).sum

theorem findLatency_eq_specChosen {s : State} {e : Endpoint} {vid : Nat}
    (hs : connsSorted e.cache_connections = true) :
    s.findLatency e vid = specChosenLatency s e vid := by
  unfold State.findLatency specChosenLatency
  cases hf : e.cache_connections.find? (fun p => decide (vid ∈ s.storedSet p.1)) with
  | none =>
    have hnil : e.cache_connections.filter
        (fun p => decide (vid ∈ s.storedSet p.1)) = [] := by
      rw [List.filter_eq_nil_iff]
      exact List.find?_eq_none.1 hf
    rw [hnil]
    rfl
  | some x =>
    have hmemx : x ∈ e.cache_connections := List.mem_of_find?_eq_some hf
    have hpx := List.find?_some hf
    have hxf : x.2 ∈ (e.cache_connections.filter
        (fun p => decide (vid ∈ s.storedSet p.1))).map (fun p => p.2) :=
      List.mem_map_of_mem _ (List.mem_filter.2 ⟨hmemx, hpx⟩)
    have hle : ∀ z ∈ (e.cache_connections.filter
        (fun p => decide (vid ∈ s.storedSet p.1))).map (fun p => p.2), x.2 ≤ z := by
      intro z hz
      obtain ⟨y, hy, rfl⟩ := List.mem_map.1 hz
      obtain ⟨hy1, hy2⟩ := List.mem_filter.1 hy
      exact find?_sorted_min hs hf y hy1 hy2
    rw [(List.min?_eq_some_iff (fun a => le_refl a) (fun a b => min_choice a b)
      (fun a b c => le_min_iff)).2 ⟨hxf, hle⟩]
    rfl

theorem wrapBenefit_eq {L lat amt : Nat} (hlat : lat ≤ L) (hL : L < 2 ^ 32)
    (hprod : L * amt < 2 ^ 32) :
    wrap32 (usub32 L lat * amt) = (L - lat) * amt := by
  rw [usub32_of_le hlat hL,
    wrap32_eq_of_lt (lt_of_le_of_lt (Nat.mul_le_mul_right _ (Nat.sub_le _ _)) hprod)]

/-- Well-formedness of the demand model as established by `parse_input`
and the problem statement: each endpoint's connection list is sorted
ascending by link latency, link latencies never exceed the datacenter
latency, latencies fit in `u32`, and the `u32` products
`latency * amount` do not overflow. -/
def ValidInput (inp : Input) : Prop :=
  (∀ e ∈ inp.endpoints, connsSorted e.cache_connections = true ∧
    e.latency < 2 ^ 32 ∧ ∀ p ∈ e.cache_connections, p.2 ≤ e.latency) ∧
  (∀ rd ∈ inp.request_descriptions,
    (inp.endpoints.getD rd.endpoint_id default).latency * rd.amount < 2 ^ 32)

theorem validEndpoint {inp : Input} (hv : ValidInput inp) (eid : Nat) :
    connsSorted (inp.endpoints.getD eid default).cache_connections = true ∧
    (inp.endpoints.getD eid default).latency < 2 ^ 32 ∧
    ∀ p ∈ (inp.endpoints.getD eid default).cache_connections,
      p.2 ≤ (inp.endpoints.getD eid default).latency := by
  rcases Nat.lt_or_ge eid inp.endpoints.length with h | h
  · rw [List.getD_eq_getElem _ _ h]
    exact hv.1 _ (List.getElem_mem h)
  · rw [List.getD_eq_getElem?_getD, List.getElem?_eq_none h]
    refine ⟨rfl, by decide, ?_⟩
    intro p hp
    have hd : (Option.getD (none : Option Endpoint) default).cache_connections =
        ([] : List (Nat × Nat)) := rfl
    rw [hd] at hp
    simp at hp

theorem scoreTerm_eq_specSaved {s : State} {rd : RequestDescription}
    (hv : ValidInput s.input) (hrd : rd ∈ s.input.request_descriptions) :
    s.scoreTerm rd = specSaved s rd := by
  obtain ⟨hs, hL, hlat⟩ := validEndpoint hv rd.endpoint_id
  have hprod := hv.2 rd hrd
  unfold State.scoreTerm specSaved
  dsimp only
  rw [findLatency_eq_specChosen hs]
  cases hf : specChosenLatency s (s.input.endpoints.getD rd.endpoint_id default)
      rd.video_id with
  | none => rfl
  | some lat =>
    simp only
    have hlmem : lat ∈ ((s.input.endpoints.getD rd.endpoint_id
        default).cache_connections.filter
        (fun p => decide (rd.video_id ∈ s.storedSet p.1))).map (fun p => p.2) := by
      unfold specChosenLatency at hf
      cases hm : ((s.input.endpoints.getD rd.endpoint_id
          default).cache_connections.filter
          (fun p => decide (rd.video_id ∈ s.storedSet p.1))).map (fun p => p.2) with
      | nil => rw [hm] at hf; simp at hf
      | cons z t =>
        rw [hm] at hf
        have := (List.min?_eq_some_iff (fun a => le_refl a)
          (fun a b => min_choice a b) (fun a b c => le_min_iff)).1 hf
        rw [← hm] at this ⊢
        exact this.1
    obtain ⟨y, hy, hyeq⟩ := List.mem_map.1 hlmem
    have hymem : y ∈ (s.input.endpoints.getD rd.endpoint_id
        default).cache_connections := (List.mem_filter.1 hy).1
    have hle : lat ≤ (s.input.endpoints.getD rd.endpoint_id default).latency := by
      rw [← hyeq]; exact hlat y hymem
    rw [wrapBenefit_eq hle hL hprod, Nat.mul_comm]

/-- C2: for every finished Allocation State over a well-formed input, the
Plan Evaluator charges each entry the smallest link latency among the
endpoint's reachable caches that store the requested video (the datacenter
latency — saving 0 — if none does), accumulates
`sum_latency_saved = Σ amount * (datacenter_latency - chosen_latency)` and
`sum_requests = Σ amount`, and reports `sum_latency_saved` with the
normalized score `floor(sum_latency_saved / sum_requests * 1000)`,
saturated at `u32::MAX` by the program's float-to-`u32` cast (the `f64`
quotient is modelled as exact arithmetic; the zero-demand branch is
C5's). -/
theorem c2_score_spec (s : State) (hv : ValidInput s.input) :
    s.score = (specSumSaved s,
      if sumRequests s.input = 0 then 0
      else min (specSumSaved s * 1000 / sumRequests s.input) (2 ^ 32 - 1)) := by
  have hsum : (s.input.request_descriptions.map (fun rd => s.scoreTerm rd)).sum =
      specSumSaved s := by
    unfold specSumSaved
    congr 1
    exact List.map_congr_left (fun rd hrd => scoreTerm_eq_specSaved hv hrd)
  unfold State.score
  rw [hsum]

theorem c2_score_spec_witness :
    State.score (State.insert_video_in_cache (State.new witInput) 0 0) =
      (specSumSaved (State.insert_video_in_cache (State.new witInput) 0 0),
       if sumRequests witInput = 0 then 0
       else min (specSumSaved (State.insert_video_in_cache (State.new witInput) 0 0) *
         1000 / sumRequests witInput) (2 ^ 32 - 1)) :=
  c2_score_spec _ ⟨by decide, by decide⟩

/-! ## Claim C4: the Demand Aggregator is permutation-invariant -/

/-- The `(video_id, endpoint_id)` key of a raw input triple. -/
def keyOf (t : Nat × Nat × Nat) : Nat × Nat := (t.1, t.2.1)

/-- The amount of a raw input triple. -/
def amtOf (t : Nat × Nat × Nat) : Nat := t.2.2

/-- Does the raw list contain a triple with the given key? -/
def hasKey (l : List (Nat × Nat × Nat)) (k : Nat × Nat) : Bool :=
  l.any (fun t => decide (keyOf t = k))

/-- The sum of the amounts of all triples with the given key. -/
def matchingSum (l : List (Nat × Nat × Nat)) (k : Nat × Nat) : Nat :=
  ((l.filter (fun t => decide (keyOf t = k))).map amtOf).sum

theorem lookupAmount_accum_self :
    ∀ (m : List ((Nat × Nat) × Nat)) (k : Nat × Nat) (x : Nat),
      lookupAmount (accumInMap m k x) k =
        some (wrap32 ((lookupAmount m k).getD 0 + x)) := by
  intro m
  induction m with
  | nil => intro k x; simp [accumInMap, lookupAmount]
  | cons p rest ih =>
    intro k x
    obtain ⟨k', s⟩ := p
    unfold accumInMap
    by_cases hk : k' = k
    · rw [if_pos hk]
      subst hk
      unfold lookupAmount
      rw [List.find?_cons, List.find?_cons]
      simp
    · rw [if_neg hk]
      unfold lookupAmount
      rw [List.find?_cons, List.find?_cons]
      have hd : (decide (((k', s) : (Nat × Nat) × Nat).1 = k)) = false := by
        simp [hk]
      rw [hd]
      exact ih k x

theorem lookupAmount_accum_ne :
    ∀ (m : List ((Nat × Nat) × Nat)) (k k' : Nat × Nat) (x : Nat), k' ≠ k →
      lookupAmount (accumInMap m k x) k' = lookupAmount m k' := by
  intro m
  induction m with
  | nil =>
    intro k k' x h
    unfold accumInMap lookupAmount
    rw [List.find?_cons]
    have hd : (decide (((k, wrap32 x) : (Nat × Nat) × Nat).1 = k')) = false := by
      simp [Ne.symm h]
    rw [hd]
  | cons p rest ih =>
    intro k k' x h
    obtain ⟨k0, s⟩ := p
    unfold accumInMap
    by_cases hk : k0 = k
    · rw [if_pos hk]
      subst hk
      unfold lookupAmount
      rw [List.find?_cons, List.find?_cons]
      have hd : (decide (((k0, wrap32 (s + x)) : (Nat × Nat) × Nat).1 = k')) =
          decide (((k0, s) : (Nat × Nat) × Nat).1 = k') := by simp
      rw [hd]
      cases hdc : (decide (((k0, s) : (Nat × Nat) × Nat).1 = k')) with
      | true =>
        have hk0 : k0 = k' := by simpa using hdc
        exact absurd hk0.symm h
      | false => rfl
    · rw [if_neg hk]
      unfold lookupAmount
      rw [List.find?_cons, List.find?_cons]
      cases hdc : (decide (((k0, s) : (Nat × Nat) × Nat).1 = k')) with
      | true => rfl
      | false => exact ih k k' x h

theorem hasKey_false_matchingSum {l : List (Nat × Nat × Nat)} {k : Nat × Nat}
    (h : hasKey l k = false) : matchingSum l k = 0 := by
  unfold matchingSum
  have hnil : l.filter (fun t => decide (keyOf t = k)) = [] := by
    rw [List.filter_eq_nil_iff]
    intro a ha
    have := List.any_eq_false.1 h a ha
    simpa using this
  rw [hnil]
  rfl

theorem accumFold_lookup :
    ∀ (l : List (Nat × Nat × Nat)) (m : List ((Nat × Nat) × Nat)) (k : Nat × Nat),
      lookupAmount (l.foldl (fun m t => accumInMap m (t.1, t.2.1) t.2.2) m) k =
      if hasKey l k = true
      then some (wrap32 ((lookupAmount m k).getD 0 + matchingSum l k))
      else lookupAmount m k := by
  intro l
  induction l with
  | nil =>
    intro m k
    rw [if_neg (by simp [hasKey])]
    rfl
  | cons t l' ih =>
    intro m k
    rw [List.foldl_cons]
    rw [ih (accumInMap m (t.1, t.2.1) t.2.2) k]
    have hamt : amtOf t = t.2.2 := rfl
    by_cases hkt : keyOf t = k
    · have hhk : hasKey (t :: l') k = true := by
        unfold hasKey
        rw [List.any_cons]
        simp [hkt]
      rw [if_pos hhk]
      have hms : matchingSum (t :: l') k = amtOf t + matchingSum l' k := by
        unfold matchingSum
        rw [List.filter_cons, if_pos (by simpa using hkt)]
        rw [List.map_cons, List.sum_cons]
      have hkey : (t.1, t.2.1) = k := hkt
      rw [hkey]
      have hself := lookupAmount_accum_self m k t.2.2
      by_cases hl' : hasKey l' k = true
      · rw [if_pos hl', hself]
        simp only [Option.getD_some]
        rw [hms]
        congr 1
        unfold wrap32
        rw [Nat.mod_add_mod]
        congr 1
        rw [hamt]
        omega
      · have hfalse : hasKey l' k = false := by
          revert hl'; cases hasKey l' k <;> simp
        rw [if_neg hl', hself, hms, hasKey_false_matchingSum hfalse, hamt,
          Nat.add_zero]
    · have hne : (k : Nat × Nat) ≠ (t.1, t.2.1) := fun hh => hkt hh.symm
      have hnelk := lookupAmount_accum_ne m (t.1, t.2.1) k t.2.2 hne
      have hhk : hasKey (t :: l') k = hasKey l' k := by
        unfold hasKey
        rw [List.any_cons]
        simp [hkt]
      have hms : matchingSum (t :: l') k = matchingSum l' k := by
        unfold matchingSum
        rw [List.filter_cons, if_neg (by simpa using hkt)]
      rw [hhk, hms, hnelk]

theorem aggregateRequests_lookup (l : List (Nat × Nat × Nat)) (k : Nat × Nat) :
    lookupAmount (aggregateRequests l) k =
      if hasKey l k = true then some (wrap32 (matchingSum l k)) else none := by
  unfold aggregateRequests
  rw [accumFold_lookup l [] k]
  have h0 : lookupAmount [] k = none := rfl
  rw [h0]
  split
  · simp
  · rfl

theorem hasKey_perm {l₁ l₂ : List (Nat × Nat × Nat)} (h : l₁.Perm l₂) (k : Nat × Nat) :
    hasKey l₁ k = hasKey l₂ k := by
  unfold hasKey
  rw [Bool.eq_iff_iff, List.any_eq_true, List.any_eq_true]
  constructor
  · rintro ⟨x, hx, hpx⟩; exact ⟨x, h.mem_iff.1 hx, hpx⟩
  · rintro ⟨x, hx, hpx⟩; exact ⟨x, h.mem_iff.2 hx, hpx⟩

theorem matchingSum_perm {l₁ l₂ : List (Nat × Nat × Nat)} (h : l₁.Perm l₂)
    (k : Nat × Nat) : matchingSum l₁ k = matchingSum l₂ k :=
  List.Perm.sum_eq (List.Perm.map _ (List.Perm.filter _ h))

/-- The list of keys of an association-list map. -/
def mapKeys (m : List ((Nat × Nat) × Nat)) : List (Nat × Nat) := m.map (fun p => p.1)

theorem accum_keys :
    ∀ (m : List ((Nat × Nat) × Nat)) (k : Nat × Nat) (x : Nat),
      mapKeys (accumInMap m k x) =
        if k ∈ mapKeys m then mapKeys m else mapKeys m ++ [k] := by
  intro m
  induction m with
  | nil => intro k x; simp [accumInMap, mapKeys]
  | cons p rest ih =>
    intro k x
    obtain ⟨k0, s⟩ := p
    unfold accumInMap
    by_cases hk : k0 = k
    · rw [if_pos hk]
      subst hk
      rw [if_pos (by simp [mapKeys])]
      simp [mapKeys]
    · rw [if_neg hk]
      have hm : mapKeys (((k0, s) : (Nat × Nat) × Nat) :: accumInMap rest k x) =
          k0 :: mapKeys (accumInMap rest k x) := rfl
      rw [hm, ih k x]
      have hcons : mapKeys (((k0, s) : (Nat × Nat) × Nat) :: rest) =
          k0 :: mapKeys rest := rfl
      by_cases hmem : k ∈ mapKeys rest
      · rw [if_pos hmem, if_pos (by rw [hcons]; exact List.mem_cons_of_mem _ hmem)]
        rfl
      · have hnotin : k ∉ mapKeys (((k0, s) : (Nat × Nat) × Nat) :: rest) := by
          rw [hcons]
          intro hmm
          rcases List.mem_cons.1 hmm with h1 | h1
          · exact hk h1.symm
          · exact hmem h1
        rw [if_neg hmem, if_neg hnotin]
        rfl

theorem accumFold_keys_nodup :
    ∀ (l : List (Nat × Nat × Nat)) (m : List ((Nat × Nat) × Nat)),
      (mapKeys m).Nodup →
      (mapKeys (l.foldl (fun m t => accumInMap m (t.1, t.2.1) t.2.2) m)).Nodup := by
  intro l
  induction l with
  | nil => intro m h; exact h
  | cons t l' ih =>
    intro m h
    rw [List.foldl_cons]
    apply ih
    rw [accum_keys]
    split
    · exact h
    · rw [List.nodup_append]
      refine ⟨h, List.nodup_singleton _, ?_⟩
      intro a ha hb
      have : a = (t.1, t.2.1) := by simpa using hb
      subst this
      exact (by assumption : (t.1, t.2.1) ∉ mapKeys m) ha

/-- C4: the Demand Aggregator is permutation-invariant: raw triple lists
that are permutations of each other produce the same deduplicated map
(same keys, same amount at every key); each key appears exactly once; the
amount recorded for a present key is the `u32` sum (modulo `2^32`) of all
matching input amounts, and exactly the sum when it does not overflow. -/
theorem c4_aggregation_perm (l₁ l₂ : List (Nat × Nat × Nat)) (h : l₁.Perm l₂) :
    (∀ k, lookupAmount (aggregateRequests l₁) k =
      lookupAmount (aggregateRequests l₂) k) ∧
    (mapKeys (aggregateRequests l₁)).Nodup ∧
    (∀ k, lookupAmount (aggregateRequests l₁) k =
      if hasKey l₁ k = true then some (wrap32 (matchingSum l₁ k)) else none) ∧
    (∀ k, hasKey l₁ k = true → matchingSum l₁ k < 2 ^ 32 →
      lookupAmount (aggregateRequests l₁) k = some (matchingSum l₁ k)) := by
  refine ⟨fun k => ?_, ?_, fun k => aggregateRequests_lookup l₁ k, fun k hk hlt => ?_⟩
  · rw [aggregateRequests_lookup l₁ k, aggregateRequests_lookup l₂ k,
      hasKey_perm h k, matchingSum_perm h k]
  · exact accumFold_keys_nodup l₁ [] List.nodup_nil
  · rw [aggregateRequests_lookup l₁ k, if_pos hk, wrap32_eq_of_lt hlt]

/-- Concrete permuted raw triple lists for the C4 witness. -/
def c4RawA : List (Nat × Nat × Nat) := [(0, 0, 2), (1, 0, 3), (0, 0, 4)]

/-- A permutation of `c4RawA`. -/
def c4RawB : List (Nat × Nat × Nat) := [(1, 0, 3), (0, 0, 4), (0, 0, 2)]

theorem c4_aggregation_perm_witness :
    lookupAmount (aggregateRequests c4RawA) (0, 0) =
      lookupAmount (aggregateRequests c4RawB) (0, 0) ∧
    (mapKeys (aggregateRequests c4RawA)).Nodup :=
  ⟨(c4_aggregation_perm c4RawA c4RawB (by decide)).1 (0, 0),
   (c4_aggregation_perm c4RawA c4RawB (by decide)).2.1⟩

/-! ## Claim C6: the Benefit Aggregator's ranking -/

instance : IsTotal (Nat × Nat × Nat) (fun a b => b.2.2 ≤ a.2.2) :=
  ⟨fun a b => le_total b.2.2 a.2.2⟩

instance : IsTrans (Nat × Nat × Nat) (fun a b => b.2.2 ≤ a.2.2) :=
  ⟨fun _ _ _ h1 h2 => le_trans h2 h1⟩

/-- A demand model with two distinct `(cache, video)` keys of equal
aggregated benefit (two endpoints, each reaching its own cache with the
same latency saving). -/
def c6Input : Input :=
  { videos := [{ size := 1 }]
    endpoints := [{ latency := 10, cache_connections := [(0, 0)] },
                  { latency := 10, cache_connections := [(1, 0)] }]
    numCaches := 2
    cache_size := 10
    request_descriptions := [{ amount := 1, video_id := 0, endpoint_id := 0 },
                             { amount := 1, video_id := 0, endpoint_id := 1 }] }

/-- An alternative enumeration order of `c6Input`'s benefit map (Rust's
`HashMap` iteration order is arbitrary and varies between runs). -/
def c6Enum : List ((Nat × Nat) × Nat) := [((1, 0), 10), ((0, 0), 10)]

/-- C6 counterexample: the ranked list is not determined by the Demand
Model alone.  `c6Enum` is a permutation of the benefit map computed for
`c6Input`, yet ranking it yields a different list than ranking the
first-insertion enumeration, and the tie is won by key `(1, 0)` even
though key `(0, 0)` was first-seen in input order — so the ranked list
depends on the `HashMap`'s arbitrary (run-to-run randomized) iteration
order, refuting both determinism across runs and first-seen tie order. -/
theorem c6_counterexample :
    c6Enum.Perm (aggregateScores (request_description_scores c6Input)) ∧
    rankEntries c6Enum ≠
      rankEntries (aggregateScores (request_description_scores c6Input)) ∧
    (rankEntries c6Enum).head? = some (1, 0, 10) :=
  ⟨by decide, by decide, by decide⟩

/-- C6 amended: for every fixed Demand Model, the *multiset* of
`(cache_id, video_id, total_benefit)` triples is determined by the model
and the output is sorted descending by `total_benefit`; but the order of
triples with equal benefit follows the benefit map's enumeration order
(Rust `HashMap` iteration order, arbitrary and randomized per run), not
stable first-seen input order. -/
theorem c6_aggregator_ranking (ll : List (List (Nat × Nat × Nat)))
    (enum : List ((Nat × Nat) × Nat)) (h : enum.Perm (aggregateScores ll)) :
    (rankEntries enum).Perm (tripleList (aggregateScores ll)) ∧
    List.Sorted (fun a b => b.2.2 ≤ a.2.2) (rankEntries enum) := by
  constructor
  · exact (List.perm_insertionSort _ _).trans (List.Perm.map _ h)
  · exact List.sorted_insertionSort _ _

theorem c6_aggregator_ranking_witness :
    (rankEntries c6Enum).Perm
      (tripleList (aggregateScores (request_description_scores c6Input))) ∧
    List.Sorted (fun a b => b.2.2 ≤ a.2.2) (rankEntries c6Enum) :=
  c6_aggregator_ranking (request_description_scores c6Input) c6Enum (by decide)

/-! ## Claims C7 and C9: the advanced strategy's candidate scorer -/

theorem filterMap_some_eq_map {α β : Type} (g : α → β) :
    ∀ l : List α, l.filterMap (fun a => some (g a)) = l.map g := by
  intro l
  induction l with
  | nil => rfl
  | cons a t ih => rw [List.filterMap_cons]; simp [ih]

theorem scoreEntry_eq_wrap (inp : Input) (rd : RequestDescription) :
    scoreEntry inp rd =
      if inp.cache_size < (inp.videos.getD rd.video_id default).size then []
      else (inp.endpoints.getD rd.endpoint_id default).cache_connections.map
        (fun p => (p.1, rd.video_id,
          wrap32 (usub32 (inp.endpoints.getD rd.endpoint_id default).latency p.2 *
            rd.amount) / (inp.videos.getD rd.video_id default).size)) := by
  unfold scoreEntry
  dsimp only
  by_cases hsz : inp.cache_size < (inp.videos.getD rd.video_id default).size
  · rw [if_pos hsz]
    rw [List.filterMap_eq_nil_iff]
    intro p _
    rw [if_pos hsz]
  · rw [if_neg hsz]
    have hf : (fun p : Nat × Nat =>
        if inp.cache_size < (inp.videos.getD rd.video_id default).size then none
        else some (p.1, rd.video_id,
          wrap32 (usub32 (inp.endpoints.getD rd.endpoint_id default).latency p.2 *
            rd.amount) / (inp.videos.getD rd.video_id default).size)) =
        (fun p : Nat × Nat => some (p.1, rd.video_id,
          wrap32 (usub32 (inp.endpoints.getD rd.endpoint_id default).latency p.2 *
            rd.amount) / (inp.videos.getD rd.video_id default).size)) :=
      funext fun p => if_neg hsz
    rw [hf, filterMap_some_eq_map]

/-- C9 (amended): candidate scoring is total in release-mode (wrapping)
semantics: scoring never fails, and — unless the video's size exceeds the
capacity, which removes the entry entirely — every reachable cache yields
exactly one candidate whose benefit is the `u32` value
`wrap32 (usub32 latency link_latency * amount) / size`.  Benefits are
unsigned, never negative; when `link_latency > latency` the subtraction
wraps modulo `2^32`, yielding a huge benefit that ranks first instead of
losing (see the counterexample). -/
theorem c9_scoring_total (inp : Input) (rd : RequestDescription) :
    scoreEntry inp rd =
      if inp.cache_size < (inp.videos.getD rd.video_id default).size then []
      else (inp.endpoints.getD rd.endpoint_id default).cache_connections.map
        (fun p => (p.1, rd.video_id,
          wrap32 (usub32 (inp.endpoints.getD rd.endpoint_id default).latency p.2 *
            rd.amount) / (inp.videos.getD rd.video_id default).size)) :=
  scoreEntry_eq_wrap inp rd

/-- A demand model in which the endpoint's link to cache 1 has latency 20,
larger than its datacenter latency 10: the benefit subtraction underflows. -/
def c9Input : Input :=
  { videos := [{ size := 1 }]
    endpoints := [{ latency := 10, cache_connections := [(0, 5), (1, 20)] }]
    numCaches := 2
    cache_size := 10
    request_descriptions := [{ amount := 1, video_id := 0, endpoint_id := 0 }] }

/-- C9 counterexample: scoring the connection with `link_latency = 20 >
10 = datacenter_latency` does not produce a zero-or-negative benefit that
loses in ranking: the `u32` subtraction wraps to `2^32 - 10` and the
resulting candidate's benefit is `4294967286 ≠ 0`, ranking *first*, ahead
of the legitimate benefit-5 candidate. -/
theorem c9_counterexample :
    request_description_scores c9Input = [[(0, 0, 5), (1, 0, 4294967286)]] ∧
    (4294967286 : Nat) ≠ 0 ∧
    rankEntries (aggregateScores (request_description_scores c9Input)) =
      [(1, 0, 4294967286), (0, 0, 5)] :=
  ⟨by decide, by decide, by decide⟩

/-- C7: for every demand entry and every cache reachable from its
endpoint, the advanced scorer emits one candidate with benefit
`((datacenter_latency - link_latency) * amount) / size`, except that a
video whose size exceeds the uniform cache capacity yields no candidate
for any cache.  Hypotheses: link latencies do not exceed the datacenter
latency and the `u32` products do not overflow, so the wrapping arithmetic
agrees with the exact formula. -/
theorem c7_advanced_benefit (inp : Input) (rd : RequestDescription)
    (hlat : ∀ p ∈ (inp.endpoints.getD rd.endpoint_id default).cache_connections,
      p.2 ≤ (inp.endpoints.getD rd.endpoint_id default).latency)
    (hL : (inp.endpoints.getD rd.endpoint_id default).latency < 2 ^ 32)
    (hprod : (inp.endpoints.getD rd.endpoint_id default).latency * rd.amount < 2 ^ 32) :
    scoreEntry inp rd =
      if inp.cache_size < (inp.videos.getD rd.video_id default).size then []
      else (inp.endpoints.getD rd.endpoint_id default).cache_connections.map
        (fun p => (p.1, rd.video_id,
          ((inp.endpoints.getD rd.endpoint_id default).latency - p.2) * rd.amount /
            (inp.videos.getD rd.video_id default).size)) := by
  rw [scoreEntry_eq_wrap]
  by_cases hsz : inp.cache_size < (inp.videos.getD rd.video_id default).size
  · rw [if_pos hsz, if_pos hsz]
  · rw [if_neg hsz, if_neg hsz]
    exact List.map_congr_left fun p hp => by
      rw [wrapBenefit_eq (hlat p hp) hL hprod]

theorem c7_advanced_benefit_witness :
    scoreEntry witInput { amount := 10, video_id := 0, endpoint_id := 0 } =
      if witInput.cache_size <
          (witInput.videos.getD 0 default).size then []
      else (witInput.endpoints.getD 0 default).cache_connections.map
        (fun p => (p.1, 0,
          ((witInput.endpoints.getD 0 default).latency - p.2) * 10 /
            (witInput.videos.getD 0 default).size)) :=
  c7_advanced_benefit witInput { amount := 10, video_id := 0, endpoint_id := 0 }
    (by decide) (by decide) (by decide)

/-! ## Claim C10: zero-benefit candidates are kept and inserted -/

/-- A demand model whose only candidate's benefit truncates to 0
(`(100 - 0) * 1 / 200 = 0`) while the video (size 200) fits the cache
(capacity 1000). -/
def c10Input : Input :=
  { videos := [{ size := 200 }]
    endpoints := [{ latency := 100, cache_connections := [(0, 0)] }]
    numCaches := 1
    cache_size := 1000
    request_descriptions := [{ amount := 1, video_id := 0, endpoint_id := 0 }] }

/-- The ranked candidate list the program computes for `c10Input`. -/
def c10Ranked : List (Nat × Nat × Nat) :=
  rankEntries (aggregateScores (request_description_scores c10Input))

/-- C10: an aggregated candidate whose total benefit is 0 (here because
integer division truncates `(100 - 0) * 1 / 200` to 0) remains in the
ranked list, and the placement loop inserts it as soon as its cache has
room and does not already store the video: after the run, video 0 (benefit
0) is stored in cache 0 with usage 200, and the loop has terminated only
because no admissible candidate remains. -/
theorem c10_zero_benefit_inserted :
    c10Ranked = [(0, 0, 0)] ∧
    (0 : Nat) ∈ (mainLoop c10Ranked 2 (State.new c10Input)).storedSet 0 ∧
    (mainLoop c10Ranked 2 (State.new c10Input)).usageOf 0 = 200 ∧
    (mainLoop c10Ranked 2 (State.new c10Input)).findCandidate c10Ranked = none :=
  ⟨by decide, by decide, by decide, by decide⟩

/-! ## Claim C8: the basic strategy selects the maximum-benefit candidate -/

/-- An eligible candidate of the basic strategy in state `s`: a demand
entry whose endpoint does not already reach a cache holding the video,
together with a reachable connection whose cache has room for the video. -/
def EligiblePair (s : State) (rd : RequestDescription) (conn : Nat × Nat) : Prop :=
  rd ∈ s.input.request_descriptions ∧
  s.is_caching rd.endpoint_id rd.video_id = false ∧
  conn ∈ (s.input.endpoints.getD rd.endpoint_id default).cache_connections ∧
  s.fitsCache conn.1 rd.video_id = true

/-- The spec's raw-latency benefit
`(endpoint.datacenter_latency - link_latency) * amount` (exact
arithmetic). -/
def rawBenefit (s : State) (rd : RequestDescription) (conn : Nat × Nat) : Nat :=
  ((s.input.endpoints.getD rd.endpoint_id default).latency - conn.2) * rd.amount

theorem greedyCandidates_of_eligible {s : State} {rd : RequestDescription}
    {conn : Nat × Nat} (he : EligiblePair s rd conn) :
    ∃ p : Nat × Nat,
      (s.input.endpoints.getD rd.endpoint_id default).cache_connections.find?
        (fun q => s.fitsCache q.1 rd.video_id) = some p ∧
      (wrap32 (usub32 (s.input.endpoints.getD rd.endpoint_id default).latency p.2 *
        rd.amount), (rd.video_id, p.1)) ∈ s.greedyCandidates := by
  obtain ⟨hrd, hic, hconn, hfits⟩ := he
  cases hfind : (s.input.endpoints.getD rd.endpoint_id default).cache_connections.find?
      (fun q => s.fitsCache q.1 rd.video_id) with
  | none =>
    exact absurd hfits (by simpa using List.find?_eq_none.1 hfind conn hconn)
  | some p =>
    refine ⟨p, rfl, ?_⟩
    rw [State.greedyCandidates, List.mem_filterMap]
    refine ⟨rd, hrd, ?_⟩
    rw [if_neg (by simp [hic])]
    dsimp only
    rw [hfind]

theorem eligible_of_find {s : State} {rd : RequestDescription} {p : Nat × Nat}
    (hrd : rd ∈ s.input.request_descriptions)
    (hic : s.is_caching rd.endpoint_id rd.video_id = false)
    (hfind : (s.input.endpoints.getD rd.endpoint_id default).cache_connections.find?
      (fun q => s.fitsCache q.1 rd.video_id) = some p) :
    EligiblePair s rd p :=
  ⟨hrd, hic, List.mem_of_find?_eq_some hfind, by simpa using List.find?_some hfind⟩

theorem rawBenefit_eq_wrap {s : State} {rd : RequestDescription} {conn : Nat × Nat}
    (hv : ValidInput s.input) (hrd : rd ∈ s.input.request_descriptions)
    (hconn : conn ∈ (s.input.endpoints.getD rd.endpoint_id default).cache_connections) :
    wrap32 (usub32 (s.input.endpoints.getD rd.endpoint_id default).latency conn.2 *
      rd.amount) = rawBenefit s rd conn := by
  obtain ⟨_, hL, hlat⟩ := validEndpoint hv rd.endpoint_id
  exact wrapBenefit_eq (hlat conn hconn) hL (hv.2 rd hrd)

/-- C8: on a well-formed input, each iteration of the basic strategy
selects a candidate of maximal raw benefit
`(datacenter_latency - link_latency) * amount` over all demand entries and
all of each entry's reachable caches with room for the video, skipping
entries whose endpoint already reaches a cache holding the video; the loop
inserts the winning `(video, cache)` pair, and it terminates (the loop's
state becomes a fixpoint) exactly when no eligible candidate remains. -/
theorem c8_basic_strategy (s : State) (hv : ValidInput s.input) :
    (∀ b v c, greedy_next s = some (b, (v, c)) →
      ((∃ rd conn, EligiblePair s rd conn ∧ rd.video_id = v ∧ conn.1 = c ∧
          b = rawBenefit s rd conn) ∧
        ∀ rd conn, EligiblePair s rd conn → rawBenefit s rd conn ≤ b)) ∧
    (greedy_next s = none ↔ ∀ rd conn, ¬EligiblePair s rd conn) ∧
    (∀ fuel b v c, greedy_next s = some (b, (v, c)) →
      greedy (fuel + 1) s = greedy fuel (s.insert_video_in_cache c v)) ∧
    (∀ fuel, greedy_next s = none → greedy fuel s = s) := by
  refine ⟨?_, ⟨?_, ?_⟩, ?_, ?_⟩
  · intro b v c hg
    obtain ⟨rd, hrd, p, hic, hfind, hcand⟩ :=
      greedyCandidates_mem (maxByFst_mem hg)
    have hb : b = wrap32 (usub32
        (s.input.endpoints.getD rd.endpoint_id default).latency p.2 * rd.amount) :=
      congrArg Prod.fst hcand
    have hvc : (v, c) = (rd.video_id, p.1) := congrArg Prod.snd hcand
    have hveq : v = rd.video_id := congrArg Prod.fst hvc
    have hceq : c = p.1 := congrArg Prod.snd hvc
    have hep : EligiblePair s rd p := eligible_of_find hrd hic hfind
    constructor
    · exact ⟨rd, p, hep, hveq.symm, hceq.symm,
        by rw [hb, rawBenefit_eq_wrap hv hrd hep.2.2.1]⟩
    · intro rd' conn' he'
      obtain ⟨p', hfind', hmem'⟩ := greedyCandidates_of_eligible he'
      have hle := maxByFst_ge hg _ hmem'
      have hwrap : wrap32 (usub32
          (s.input.endpoints.getD rd'.endpoint_id default).latency p'.2 *
          rd'.amount) = rawBenefit s rd' p' :=
        rawBenefit_eq_wrap hv he'.1 (List.mem_of_find?_eq_some hfind')
      have hp'conn : p'.2 ≤ conn'.2 :=
        find?_sorted_min (validEndpoint hv rd'.endpoint_id).1 hfind' conn'
          he'.2.2.1 (by simpa using he'.2.2.2)
      have hmono : rawBenefit s rd' conn' ≤ rawBenefit s rd' p' :=
        Nat.mul_le_mul_right _ (Nat.sub_le_sub_left hp'conn _)
      calc rawBenefit s rd' conn' ≤ rawBenefit s rd' p' := hmono
        _ ≤ b := by rw [← hwrap]; exact hle
  · intro hg rd conn he
    have hnil : s.greedyCandidates = [] := maxByFst_eq_none.1 hg
    obtain ⟨p, _, hmem⟩ := greedyCandidates_of_eligible he
    rw [hnil] at hmem
    exact List.not_mem_nil _ hmem
  · intro h
    apply maxByFst_eq_none.2
    rw [List.eq_nil_iff_forall_not_mem]
    intro cand hc
    obtain ⟨rd, hrd, p, hic, hfind, _⟩ := greedyCandidates_mem hc
    exact h rd p (eligible_of_find hrd hic hfind)
  · intro fuel b v c hg
    have hstep : greedyStep s = some (c, v) := by
      unfold greedyStep
      rw [hg]
      rfl
    exact runLoop_succ_some greedyStep hstep fuel
  · intro fuel hg
    have hstep : greedyStep s = none := by
      unfold greedyStep
      rw [hg]
      rfl
    exact runLoop_none greedyStep hstep fuel

theorem c8_basic_strategy_witness :
    greedy_next (State.new witInput) = none ↔
      ∀ rd conn, ¬EligiblePair (State.new witInput) rd conn :=
  (c8_basic_strategy (State.new witInput) ⟨by decide, by decide⟩).2.1
